import Mathlib

/-!
A shallow embedding of `paddlenlp/taskflow/lexical_analysis.py` (the LAC
taskflow): `load_vocab`, the input-validation and text-to-id encoding of
`LacTask._preprocess`, and the tag-to-segment decoding of
`LacTask._postprocess`.

Python strings are modelled as `List Char` (for sentences and segments) or
as Lean `String` (for tags and vocabulary keys); Python ints as `Int`;
Python exceptions as `Except PyErr`; Python dicts as association lists in
which insertion prepends and lookup takes the first match, so that a later
insertion shadows an earlier one exactly as a dict overwrite does.
-/

/-- The Python exceptions this module can raise. -/
inductive PyErr where
  | indexError
  | keyError
  | valueError
  | typeError
deriving DecidableEq, Repr

/-- A value stored in the dict returned by `load_vocab`: two-field lines
store a string field, one-field lines store the integer line number. -/
inductive VocabVal where
  | vstr (s : String)
  | vint (n : Nat)
deriving DecidableEq, Repr

/-- The fragment of Python's value universe relevant to `_preprocess`'s
input validation. -/
inductive PyObj where
  | pstr (s : String)
  | pint (n : Int)
  | plist (xs : List PyObj)

/-- One record of `_postprocess`'s output: the original text, the
segmented words and the coarse tags. -/
structure LacRecord where
  text : List Char
  segs : List (List Char)
  tags : List String
deriving DecidableEq, Repr

/-- Python dict lookup `d.get(k)`: the most recent insertion wins, which
with `dictInsert` prepending means the first match in the list. -/
def lookupD (d : List (String × α)) (k : String) : Option α :=
  (d.find? (fun p => p.1 == k)).map (fun p => p.2)

/-- Python dict store `d[k] = v`, modelled by prepending so that a later
insertion shadows an earlier one. -/
def dictInsert (d : List (String × α)) (k : String) (v : α) : List (String × α) :=
  (k, v) :: d

/-- Whether an `Except` computation finished without raising. -/
def exceptIsOk : Except ε α → Bool
  | .ok _ => true
  | .error _ => false

/-- Python's wrap-around of a negative sequence index. -/
def pyWrap (n : Nat) (i : Int) : Int :=
  if i < 0 then i + n else i

/-- Python sequence indexing `xs[i]`: a negative index counts from the
end; out of range gives `none` (an `IndexError` at the call sites). -/
def pyGet (xs : List α) (i : Int) : Option α :=
  if 0 ≤ pyWrap xs.length i ∧ pyWrap xs.length i < (xs.length : Int) then
    xs.get? (pyWrap xs.length i).toNat
  else none

/-- Python slicing `xs[:i]`: a negative bound counts from the end, and the
result is clamped to the list, never an error. -/
def pyTakeTo (xs : List α) (i : Int) : List α :=
  xs.take (if i < 0 then (xs.length : Int) + i else i).toNat

/-- Python `str.split(sep)` for a one-character separator, over the
character list: always returns at least one (possibly empty) field. -/
def pySplit (sep : Char) : List Char → List (List Char)
  | [] => [[]]
  | c :: cs =>
    if c = sep then [] :: pySplit sep cs
    else
      match pySplit sep cs with
      | [] => [[c]]
      | p :: ps => (c :: p) :: ps

/-- Python `line.strip("\n")`: drop newline characters from both ends. -/
def pyStripNL (s : String) : String :=
  String.mk (((s.data.dropWhile (fun c => c = '\n')).reverse.dropWhile
    (fun c => c = '\n')).reverse)

/-- Python `str.isdigit()` restricted to ASCII digits: true iff the string
is nonempty and every character is a digit. -/
def pyIsdigit (s : String) : Bool :=
  !(s.data.isEmpty) && s.data.all Char.isDigit

/-- `tag.split('-')[0]`: the field of the tag before its first dash. -/
def pyCoarse (tag : String) : String :=
  String.mk ((pySplit '-' tag.data).headD [])

/-- The tab-split fields of one (newline-stripped) vocabulary line. -/
def lineTerms (line : String) : List (List Char) :=
  pySplit '\t' (pyStripNL line).data

/-- The `k`-th tab field of a vocabulary line, as a string. -/
def term (line : String) (k : Nat) : String :=
  String.mk ((lineTerms line).getD k [])

/-- The `if reverse == None: reverse = terms[0].isdigit()` step of
`load_vocab`, run on each two-field line. -/
def resolveReverse (reverse : Option Bool) (line : String) : Option Bool :=
  match reverse with
  | none => some (pyIsdigit (term line 0))
  | some b => some b

/-- The loop of `load_vocab`: `i` is the 0-based line number, `reverse`
the once-set orientation flag, `vocab` the dict built so far. -/
def loadVocabAux : List String → Nat → Option Bool → List (String × VocabVal) →
    Except PyErr (List (String × VocabVal))
  | [], _, _, vocab => .ok vocab
  | line :: rest, i, reverse, vocab =>
    let terms := lineTerms line
    if terms.length = 2 then
      let reverse := resolveReverse reverse line
      if reverse = some true then
        loadVocabAux rest (i + 1) reverse (dictInsert vocab (term line 1) (.vstr (term line 0)))
      else
        loadVocabAux rest (i + 1) reverse (dictInsert vocab (term line 0) (.vstr (term line 1)))
    else if terms.length = 1 then
      loadVocabAux rest (i + 1) reverse (dictInsert vocab (term line 0) (.vint i))
    else
      .error .valueError

/-- `load_vocab`, over the list of lines of the file. -/
def loadVocab (lines : List String) : Except PyErr (List (String × VocabVal)) :=
  loadVocabAux lines 0 none []

/-- The orientation flag `load_vocab` ends up using: the `isdigit` test on
the first field of the earliest two-field line, if any. -/
def globalReverse (lines : List String) : Option Bool :=
  match lines.find? (fun l => (lineTerms l).length = 2) with
  | none => none
  | some l => some (pyIsdigit (term l 0))

/-- The key a vocabulary line inserts, given the orientation flag in force;
`none` for a malformed (three-or-more-field) line. -/
def lineKey (rev : Option Bool) (line : String) : Option String :=
  if (lineTerms line).length = 2 then
    some (if rev = some true then term line 1 else term line 0)
  else if (lineTerms line).length = 1 then
    some (term line 0)
  else
    none

/-- Python `isinstance(x, str)`. -/
def pyIsStr : PyObj → Bool
  | .pstr _ => true
  | _ => false

/-- Python `isinstance(x, list)`. -/
def pyIsList : PyObj → Bool
  | .plist _ => true
  | _ => false

/-- The input validation of `_preprocess`: a `str` is wrapped into a
one-element list, then a `TypeError` is raised when the result is neither
a `str` nor a `list`. -/
def lacPreprocessCheck (inputs0 : PyObj) : Except PyErr PyObj :=
  let inputs := if pyIsStr inputs0 then PyObj.plist [inputs0] else inputs0
  if pyIsStr inputs = false ∧ pyIsList inputs = false then .error .typeError
  else .ok inputs

/-- Modelled from the spec's words for claim C4 only: "a string or list of
strings". -/
def specIsStrOrListOfStr : PyObj → Bool
  | .pstr _ => true
  | .plist xs => xs.all pyIsStr
  | _ => false

/-- Python `'key' in kwargs` over an association-list dict. -/
def kwargsContains (kwargs : List (String × Nat)) (key : String) : Bool :=
  kwargs.any (fun p => p.1 == key)

/-- `kwargs[key] if key in kwargs else dflt`, as `_preprocess` reads its
configuration values. -/
def getKwargNat (kwargs : List (String × Nat)) (key : String) (dflt : Nat) : Nat :=
  if kwargsContains kwargs key then (lookupD kwargs key).getD dflt else dflt

/-- The body of `read` in `_preprocess`: truncate the sentence to
`max_seq_len` characters, then map each character through the q2b dict and
the word dict with the `"OOV"` entry as fallback; yields the ids and their
count. -/
def readEncode (q2b : List (String × String)) (wv : List (String × VocabVal))
    (max_seq_len : Nat) (sent : List Char) : List (Option VocabVal) × Nat :=
  let input_tokens := (sent.take max_seq_len).map (fun c => String.mk [c])
  let oov_token_id := lookupD wv "OOV"
  let ids := input_tokens.foldl (fun ids token =>
    let token' := (lookupD q2b token).getD token
    let token_id := match lookupD wv token' with
      | some v => some v
      | none => oov_token_id
    ids ++ [token_id]) []
  (ids, ids.length)

/-- Modelled from the spec's words for claim C5 only: the id of one kept
character: the word-vocabulary id of its q2b-normalized form, with the
`"OOV"` entry as fallback. -/
def specEncodeChar (q2b : List (String × String)) (wv : List (String × VocabVal))
    (c : Char) : Option VocabVal :=
  let t := String.mk [c]
  match lookupD wv ((lookupD q2b t).getD t) with
  | some v => some v
  | none => lookupD wv "OOV"

/-- Python `s.endswith(pat)`: `pat` is a suffix of `s`. -/
def pyEndsWith (s pat : String) : Bool :=
  s.data.drop (s.data.length - pat.data.length) == pat.data

/-- The Python condition
`tag.endswith("-B") or (tag == "O" and tags[ind - 1] != "O")`, with its
short-circuit evaluation; indexing `tags[ind - 1]` can raise. -/
def newWordCond (tags : List String) (ind : Nat) (tag : String) : Except PyErr Bool :=
  if pyEndsWith tag "-B" then .ok true
  else if tag = "O" then
    match pyGet tags ((ind : Int) - 1) with
    | none => .error .indexError
    | some prev => .ok (prev != "O")
  else .ok false

/-- The decode loop of `_postprocess` over `enumerate(tags)`: state is
`sent_out`, `tags_out` and the accumulating `parital_word` (sic). -/
def decodeLoopAux (sent : List Char) (tags : List String) :
    List (Nat × String) → List (List Char) → List String → List Char →
    Except PyErr (List (List Char) × List String × List Char)
  | [], sent_out, tags_out, parital_word => .ok (sent_out, tags_out, parital_word)
  | (ind, tag) :: rest, sent_out, tags_out, parital_word =>
    if parital_word = [] then
      match pyGet sent (ind : Int) with
      | none => .error .indexError
      | some c => decodeLoopAux sent tags rest sent_out (tags_out ++ [pyCoarse tag]) [c]
    else
      match newWordCond tags ind tag with
      | .error e => .error e
      | .ok true =>
        match pyGet sent (ind : Int) with
        | none => .error .indexError
        | some c =>
          decodeLoopAux sent tags rest (sent_out ++ [parital_word])
            (tags_out ++ [pyCoarse tag]) [c]
      | .ok false =>
        match pyGet sent (ind : Int) with
        | none => .error .indexError
        | some c => decodeLoopAux sent tags rest sent_out tags_out (parital_word ++ [c])

/-- Lines 246-263 of `_postprocess`: run the decode loop on one sentence
and flush the still-accumulating word when fewer segments than tags were
emitted. -/
def decodeSent (sent : List Char) (tags : List String) :
    Except PyErr (List (List Char) × List String) :=
  match decodeLoopAux sent tags tags.enum [] [] [] with
  | .error e => .error e
  | .ok (sent_out, tags_out, parital_word) =>
    .ok (if sent_out.length < tags_out.length then sent_out ++ [parital_word] else sent_out,
         tags_out)

/-- A Python `for` loop collecting `f x` for each `x`, stopping at the
first raised exception. -/
def mapExcept (f : α → Except ε β) : List α → Except ε (List β)
  | [] => .ok []
  | x :: xs =>
    match f x with
    | .error e => .error e
    | .ok y =>
      match mapExcept f xs with
      | .error e => .error e
      | .ok ys => .ok (y :: ys)

/-- The list comprehension
`[self._id2tag_dict[str(index)] for index in preds[sent_index][:lengths[sent_index]]]`;
a missing key raises `KeyError`. -/
def decodeTags (id2tag : List (String × String)) (pred : List Int) (len : Int) :
    Except PyErr (List String) :=
  mapExcept (fun index =>
    match lookupD id2tag (toString index) with
    | some t => Except.ok t
    | none => Except.error PyErr.keyError) (pyTakeTo pred len)

/-- The whole per-sentence body of `_postprocess`, given the sentence, its
predictions and its length directly. -/
def decodeOne (id2tag : List (String × String)) (sent : List Char) (pred : List Int)
    (len : Int) : Except PyErr LacRecord :=
  match decodeTags id2tag pred len with
  | .error e => .error e
  | .ok tags =>
    match decodeSent sent tags with
    | .error e => .error e
    | .ok (sent_out, tags_out) => .ok ⟨sent, sent_out, tags_out⟩

/-- One iteration of the `for sent_index in range(len(lengths))` loop of
`_postprocess`, with every Python indexing step explicit. -/
def postprocessOne (id2tag : List (String × String)) (sents : List (List Char))
    (preds : List (List Int)) (lens : List Int) (i : Nat) : Except PyErr LacRecord :=
  match pyGet preds (i : Int) with
  | none => .error .indexError
  | some pred =>
    match pyGet lens (i : Int) with
    | none => .error .indexError
    | some len =>
      match decodeTags id2tag pred len with
      | .error e => .error e
      | .ok tags =>
        match pyGet sents (i : Int) with
        | none => .error .indexError
        | some sent =>
          match decodeSent sent tags with
          | .error e => .error e
          | .ok (sent_out, tags_out) => .ok ⟨sent, sent_out, tags_out⟩

/-- `LacTask._postprocess` over the parallel `text` / `result` / `lens`
inputs. -/
def postprocess (id2tag : List (String × String)) (sents : List (List Char))
    (preds : List (List Int)) (lens : List Int) : Except PyErr (List LacRecord) :=
  mapExcept (postprocessOne id2tag sents preds lens) (List.range lens.length)

/-- Modelled from the spec's words for claims C1-C3: a later index starts
a new segment iff its tag ends with `-B`, or is `O` while the previous tag
is not `O`. -/
def isNewStart (prev tag : String) : Bool :=
  pyEndsWith tag "-B" || (tag == "O" && prev != "O")

/-- Modelled from the spec's words for claims C1-C3: given the previous
tag and the remaining (character, tag) pairs, the continuation of the
current segment, the list of segments started later (the last one still
open when the input ends), and the tag at each later segment start. -/
def specCont (prev : String) : List (Char × String) →
    List Char × List (List Char) × List String
  | [] => ([], [], [])
  | (c, t) :: rest =>
    let r := specCont t rest
    if isNewStart prev t then ([], (c :: r.1) :: r.2.1, t :: r.2.2)
    else (c :: r.1, r.2.1, r.2.2)

/-- Modelled from the spec's words for claims C1-C3: index 0 always starts
a segment; the result is the segment list and the (raw) tag at each
segment start. -/
def specDecode (sent : List Char) (tags : List String) :
    List (List Char) × List String :=
  match sent.zip tags with
  | [] => ([], [])
  | (c, t) :: rest =>
    let r := specCont t rest
    ((c :: r.1) :: r.2.1, t :: r.2.2)

example : decodeSent "LAC".data ["nz-B", "nz-I", "nz-I", "v-B", "q-B"] =
    .error .indexError := rfl
example : decodeSent "LAC是个".data ["nz-B", "nz-I", "nz-I", "v-B", "q-B"] =
    .ok (["LAC".data, "是".data, "个".data], ["nz", "v", "q"]) := rfl
example : decodeSent "LAC是个".data ["nz-B", "nz-I", "nz-I", "v-B"] =
    .ok (["LAC".data, "是".data], ["nz", "v"]) := rfl
example : specDecode "LAC是个".data ["nz-B", "nz-I", "nz-I", "v-B"] =
    (["LAC".data, "是".data], ["nz-B", "v-B"]) := rfl
example : decodeSent "ab cd".data ["O", "O", "x-B", "x-I", "O"] =
    .ok (["ab".data, " c".data, "d".data], ["O", "x", "O"]) := rfl
example : decodeSent [] [] = .ok ([], []) := rfl
example : decodeOne [("0", "O")] "a".data [0, 0, 0, 0] (-1) = .error .indexError := rfl
example : lacPreprocessCheck (.plist [.pint 0]) = .ok (.plist [.pint 0]) := rfl
example : lacPreprocessCheck (.pstr "x") = .ok (.plist [.pstr "x"]) := rfl
example : lacPreprocessCheck (.pint 3) = .error .typeError := rfl
example : readEncode [("a", "b")] [("b", .vstr "7"), ("OOV", .vstr "1")] 64 "ac".data =
    ([some (.vstr "7"), some (.vstr "1")], 2) := rfl

example : loadVocab ["a", "a"] = .ok [("a", .vint 1), ("a", .vint 0)] := rfl
example : loadVocab ["0\tx", "b"] = .ok [("b", .vint 1), ("x", .vstr "0")] := rfl
example : loadVocab ["x\t0", "b"] = .ok [("b", .vint 1), ("x", .vstr "0")] := rfl
example : loadVocab ["a\tb\tc"] = .error .valueError := rfl

/-! ### Basic lemmas about the Python primitives -/

theorem pyWrap_ofNat (n m : Nat) : pyWrap n (m : Int) = m := by
  unfold pyWrap
  rw [if_neg (by omega)]

theorem pyGet_ofNat (xs : List α) (n : Nat) : pyGet xs (n : Int) = xs.get? n := by
  unfold pyGet
  rw [pyWrap_ofNat]
  have hn : ((n : Int)).toNat = n := by omega
  by_cases h : n < xs.length
  · rw [if_pos (by omega), hn]
  · rw [if_neg (by omega)]
    symm
    rw [List.get?_eq_none]
    omega

theorem pyTakeTo_ofNat (xs : List α) (n : Nat) : pyTakeTo xs (n : Int) = xs.take n := by
  unfold pyTakeTo
  have hn : ((n : Int)).toNat = n := by omega
  rw [if_neg (by omega), hn]

theorem pySplit_ne_nil (sep : Char) (l : List Char) : pySplit sep l ≠ [] := by
  induction l with
  | nil => simp [pySplit]
  | cons c cs ih =>
    simp only [pySplit]
    by_cases h : c = sep
    · simp [h]
    · rw [if_neg h]
      cases hs : pySplit sep cs with
      | nil => simp
      | cons p ps => simp

theorem pySplit_headD (sep : Char) (l : List Char) :
    (pySplit sep l).headD [] = l.takeWhile (fun c => !(c == sep)) := by
  induction l with
  | nil => rfl
  | cons c cs ih =>
    simp only [pySplit]
    by_cases h : c = sep
    · subst h
      simp [List.takeWhile_cons]
    · rw [if_neg h]
      cases hs : pySplit sep cs with
      | nil => exact absurd hs (pySplit_ne_nil sep cs)
      | cons p ps =>
        rw [hs] at ih
        simp only [List.headD_cons] at ih
        simp [List.takeWhile_cons, h, ← ih]

theorem pyCoarse_eq_takeWhile (t : String) :
    pyCoarse t = String.mk (t.data.takeWhile (fun c => !(c == '-'))) := by
  unfold pyCoarse
  rw [pySplit_headD]

theorem pyCoarse_of_no_dash (t : String) (h : '-' ∉ t.data) : pyCoarse t = t := by
  obtain ⟨data⟩ := t
  replace h : '-' ∉ data := h
  rw [pyCoarse_eq_takeWhile]
  show String.mk (data.takeWhile (fun c => !(c == '-'))) = String.mk data
  congr 1
  induction data with
  | nil => rfl
  | cons c cs ih =>
    simp only [List.mem_cons, not_or] at h
    have hc : c ≠ '-' := fun hcc => h.1 hcc.symm
    rw [List.takeWhile_cons, if_pos (by simp [hc]), ih h.2]

theorem foldl_append_map (f : α → β) : ∀ (xs : List α) (acc : List β),
    xs.foldl (fun a x => a ++ [f x]) acc = acc ++ xs.map f := by
  intro xs
  induction xs with
  | nil => simp
  | cons x xs ih =>
    intro acc
    simp [ih]

theorem zip_get? : ∀ (l : List α) (l' : List β) (i : Nat),
    (l.zip l').get? i = (l.get? i).bind (fun a => (l'.get? i).map (fun b => (a, b))) := by
  intro l
  induction l with
  | nil => intro l' i; simp
  | cons a l ih =>
    intro l' i
    cases l' with
    | nil => simp
    | cons b l' =>
      cases i with
      | zero => simp
      | succ i => simpa using ih l' i

theorem dropLast_append_getLastD (x : α) (xs : List α) (d : α) :
    (x :: xs).dropLast ++ [(x :: xs).getLastD d] = x :: xs := by
  induction xs generalizing x with
  | nil => rfl
  | cons y ys ih => simpa using ih y

theorem get?_some_lt {l : List α} {n : Nat} {a : α} (h : l.get? n = some a) :
    n < l.length := by
  by_contra hn
  rw [List.get?_eq_none.mpr (by omega)] at h
  cases h

theorem drop_cons_inv : ∀ (l : List α) (n : Nat) (a : α) (r : List α),
    l.drop n = a :: r → l.get? n = some a ∧ l.drop (n + 1) = r := by
  intro l
  induction l with
  | nil => intro n a r h; rw [List.drop_nil] at h; cases h
  | cons x xs ih =>
    intro n a r h
    cases n with
    | zero =>
      rw [List.drop_zero] at h
      cases h
      exact ⟨rfl, by rw [List.drop_succ_cons, List.drop_zero]⟩
    | succ n =>
      rw [List.drop_succ_cons] at h
      obtain ⟨h1, h2⟩ := ih n a r h
      exact ⟨h1, by rw [List.drop_succ_cons]; exact h2⟩

theorem drop_eq_cons_of_lt : ∀ (l : List α) (n : Nat), n < l.length →
    ∃ a, l.get? n = some a ∧ l.drop n = a :: l.drop (n + 1) := by
  intro l
  induction l with
  | nil => intro n h; simp at h
  | cons x xs ih =>
    intro n h
    cases n with
    | zero => exact ⟨x, rfl, by rw [List.drop_zero, List.drop_succ_cons, List.drop_zero]⟩
    | succ n =>
      obtain ⟨a, h1, h2⟩ := ih n (by simpa using h)
      exact ⟨a, h1, by rw [List.drop_succ_cons, List.drop_succ_cons]; exact h2⟩

theorem specCont_length (prev : String) (pairs : List (Char × String)) :
    (specCont prev pairs).2.1.length = (specCont prev pairs).2.2.length := by
  induction pairs generalizing prev with
  | nil => rfl
  | cons p rest ih =>
    obtain ⟨c, t⟩ := p
    simp only [specCont]
    cases h : isNewStart prev t
    · simpa using ih t
    · simpa using ih t

theorem newWordCond_eq (tags : List String) (j : Nat) (prev tag : String)
    (hp : tags.get? j = some prev) :
    newWordCond tags (j + 1) tag = .ok (isNewStart prev tag) := by
  have hcast : (((j + 1 : Nat) : Int)) - 1 = ((j : Nat) : Int) := by push_cast; ring
  unfold newWordCond
  rw [hcast, pyGet_ofNat, hp]
  unfold isNewStart
  cases he : pyEndsWith tag "-B"
  · rw [if_neg (by simp [he])]
    by_cases ht : tag = "O"
    · rw [if_pos ht]
      simp [ht]
    · rw [if_neg ht]
      simp [ht]
  · rw [if_pos (by simp [he])]
    simp [he]

theorem decodeLoopAux_spec (sent : List Char) (tags : List String) :
    ∀ (rest : List String) (j : Nat) (prev : String) (sout : List (List Char))
      (tout : List String) (pw : List Char),
    pw ≠ [] →
    tags.length ≤ sent.length →
    tags.get? j = some prev →
    tags.drop (j + 1) = rest →
    decodeLoopAux sent tags (List.enumFrom (j + 1) rest) sout tout pw =
      .ok (sout ++ ((pw ++ (specCont prev ((sent.drop (j + 1)).zip rest)).1) ::
                  (specCont prev ((sent.drop (j + 1)).zip rest)).2.1).dropLast,
           tout ++ ((specCont prev ((sent.drop (j + 1)).zip rest)).2.2.map pyCoarse),
           ((pw ++ (specCont prev ((sent.drop (j + 1)).zip rest)).1) ::
            (specCont prev ((sent.drop (j + 1)).zip rest)).2.1).getLastD []) := by
  intro rest
  induction rest with
  | nil =>
    intro j prev sout tout pw hpw hlen hprev hdrop
    simp [decodeLoopAux, specCont, List.zip_nil_right]
  | cons t rest' ih =>
    intro j prev sout tout pw hpw hlen hprev hdrop
    have hjlt : j + 1 < tags.length := by
      have hd : (tags.drop (j + 1)).length = rest'.length + 1 := by rw [hdrop]; simp
      rw [List.length_drop] at hd
      omega
    have hslt : j + 1 < sent.length := lt_of_lt_of_le hjlt hlen
    obtain ⟨htag, hdrop2⟩ := drop_cons_inv tags (j + 1) t rest' hdrop
    obtain ⟨c, hc, hsdrop⟩ := drop_eq_cons_of_lt sent (j + 1) hslt
    rw [List.enumFrom_cons]
    simp only [decodeLoopAux]
    rw [if_neg hpw, newWordCond_eq tags j prev t hprev]
    rw [hsdrop, List.zip_cons_cons]
    simp only [specCont]
    cases hns : isNewStart prev t
    · rw [pyGet_ofNat, hc]
      dsimp only
      rw [ih (j + 1) t sout tout (pw ++ [c]) (by simp) hlen htag hdrop2]
      simp [List.append_assoc]
    · rw [pyGet_ofNat, hc]
      dsimp only
      rw [ih (j + 1) t (sout ++ [pw]) (tout ++ [pyCoarse t]) [c] (by simp) hlen htag hdrop2]
      simp [List.append_assoc, List.getLastD_cons]

theorem decodeSent_eq_spec (sent : List Char) (tags : List String)
    (hlen : tags.length ≤ sent.length) :
    decodeSent sent tags =
      .ok ((specDecode sent tags).1, (specDecode sent tags).2.map pyCoarse) := by
  cases tags with
  | nil => simp [decodeSent, decodeLoopAux, specDecode, List.enum, List.zip_nil_right]
  | cons t0 ts =>
    have h0 : 0 < sent.length := by
      simp only [List.length_cons] at hlen
      omega
    obtain ⟨c0, hc0, hsd⟩ := drop_eq_cons_of_lt sent 0 h0
    rw [List.drop_zero] at hsd
    unfold decodeSent
    rw [List.enum_cons]
    simp only [decodeLoopAux, if_true, eq_self_iff_true, pyGet_ofNat]
    rw [show sent.get? 0 = some c0 from hc0]
    dsimp only
    simp only [List.nil_append]
    rw [show (1 : Nat) = 0 + 1 from rfl]
    rw [decodeLoopAux_spec sent (t0 :: ts) ts 0 t0 [] [pyCoarse t0] [c0]
      (by simp) hlen rfl (by simp)]
    dsimp only
    have hzip : sent.zip (t0 :: ts) = (c0, t0) :: ((sent.drop 1).zip ts) := by
      conv_lhs => rw [hsd]
      rw [List.zip_cons_cons]
    have hlength : ((([c0] ++ (specCont t0 ((sent.drop 1).zip ts)).1) ::
        (specCont t0 ((sent.drop 1).zip ts)).2.1).dropLast).length <
        ([pyCoarse t0] ++ (specCont t0 ((sent.drop 1).zip ts)).2.2.map pyCoarse).length := by
      have hsc := specCont_length t0 ((sent.drop 1).zip ts)
      rw [List.length_dropLast]
      simp only [List.length_cons, List.length_append, List.length_map]
      omega
    simp only [List.nil_append, Nat.zero_add]
    rw [if_pos hlength]
    unfold specDecode
    rw [hzip]
    simp only [specCont]
    rw [dropLast_append_getLastD]
    simp

theorem decodeLoopAux_ok_le (sent : List Char) (tags : List String) :
    ∀ (rest : List String) (j : Nat) (sout : List (List Char)) (tout : List String)
      (pw : List Char) (r : List (List Char) × List String × List Char),
    decodeLoopAux sent tags (List.enumFrom j rest) sout tout pw = .ok r →
    rest = [] ∨ j + rest.length ≤ sent.length := by
  intro rest
  induction rest with
  | nil => intro j sout tout pw r h; exact Or.inl rfl
  | cons t rest' ih =>
    intro j sout tout pw r h
    rw [List.enumFrom_cons] at h
    simp only [decodeLoopAux] at h
    by_cases hpw : pw = []
    · rw [if_pos hpw] at h
      cases hg : pyGet sent (j : Int) with
      | none => rw [hg] at h; cases h
      | some c =>
        rw [hg] at h
        dsimp only at h
        rw [pyGet_ofNat] at hg
        have hjl : j < sent.length := get?_some_lt hg
        rcases ih (j + 1) _ _ _ _ h with h' | h'
        · subst h'
          simpa using hjl
        · simp only [List.length_cons]
          omega
    · rw [if_neg hpw] at h
      cases hw : newWordCond tags j t with
      | error e => rw [hw] at h; cases h
      | ok b =>
        rw [hw] at h
        cases b with
        | true =>
          dsimp only at h
          cases hg : pyGet sent (j : Int) with
          | none => rw [hg] at h; cases h
          | some c =>
            rw [hg] at h
            dsimp only at h
            rw [pyGet_ofNat] at hg
            have hjl : j < sent.length := get?_some_lt hg
            rcases ih (j + 1) _ _ _ _ h with h' | h'
            · subst h'
              simpa using hjl
            · simp only [List.length_cons]
              omega
        | false =>
          dsimp only at h
          cases hg : pyGet sent (j : Int) with
          | none => rw [hg] at h; cases h
          | some c =>
            rw [hg] at h
            dsimp only at h
            rw [pyGet_ofNat] at hg
            have hjl : j < sent.length := get?_some_lt hg
            rcases ih (j + 1) _ _ _ _ h with h' | h'
            · subst h'
              simpa using hjl
            · simp only [List.length_cons]
              omega

theorem decodeSent_ok_le (sent : List Char) (tags : List String)
    (r : List (List Char) × List String)
    (h : decodeSent sent tags = .ok r) : tags.length ≤ sent.length := by
  unfold decodeSent at h
  cases hl : decodeLoopAux sent tags tags.enum [] [] [] with
  | error e => rw [hl] at h; cases h
  | ok trip =>
    have he : tags.enum = List.enumFrom 0 tags := rfl
    rw [he] at hl
    rcases decodeLoopAux_ok_le sent tags tags 0 [] [] [] trip hl with h' | h'
    · rw [h']
      simp
    · simpa using h'

theorem specCont_join (pairs : List (Char × String)) : ∀ (prev : String),
    (specCont prev pairs).1 ++ (specCont prev pairs).2.1.flatten = pairs.map Prod.fst := by
  induction pairs with
  | nil => intro prev; rfl
  | cons p rest ih =>
    intro prev
    obtain ⟨c, t⟩ := p
    simp only [specCont]
    cases h : isNewStart prev t
    · simpa using ih t
    · simpa using ih t

theorem zip_take_left : ∀ (l : List α) (l' : List β),
    l.zip l' = (l.take l'.length).zip l' := by
  intro l
  induction l with
  | nil => intro l'; simp
  | cons a l ih =>
    intro l'
    cases l' with
    | nil => simp
    | cons b l' => simp [ih l']

theorem specDecode_join (sent : List Char) (tags : List String) :
    (specDecode sent tags).1.flatten = (sent.zip tags).map Prod.fst := by
  unfold specDecode
  cases hz : sent.zip tags with
  | nil => rfl
  | cons p rest =>
    obtain ⟨c, t⟩ := p
    dsimp only
    have := specCont_join rest t
    simp only [List.flatten_cons, List.map_cons]
    rw [← this]
    simp

theorem specCont_mem_tags (pairs : List (Char × String)) : ∀ (prev : String)
    (x : String), x ∈ (specCont prev pairs).2.2 → x ∈ pairs.map Prod.snd := by
  induction pairs with
  | nil => intro prev x h; simp [specCont] at h
  | cons p rest ih =>
    intro prev x
    obtain ⟨c, t⟩ := p
    simp only [specCont]
    cases hns : isNewStart prev t
    · rw [if_neg Bool.false_ne_true]
      intro h
      exact List.mem_cons_of_mem _ (ih t x h)
    · rw [if_pos rfl]
      intro h
      rcases List.mem_cons.mp h with h' | h'
      · simp [h']
      · exact List.mem_cons_of_mem _ (ih t x h')

theorem specCont_tags_get (pairs : List (Char × String)) : ∀ (prev : String) (k : Nat),
    (specCont prev pairs).2.2.get? k =
      (pairs.map Prod.snd).get?
        ((specCont prev pairs).1.length + ((specCont prev pairs).2.1.take k).flatten.length) := by
  induction pairs with
  | nil => intro prev k; simp [specCont]
  | cons p rest ih =>
    intro prev k
    obtain ⟨c, t⟩ := p
    simp only [specCont]
    cases hns : isNewStart prev t
    · rw [if_neg Bool.false_ne_true]
      dsimp only
      rw [ih t k]
      simp only [List.map_cons, List.length_cons]
      rw [show (specCont t rest).1.length + 1 +
          (((specCont t rest).2.1.take k).flatten).length =
          ((specCont t rest).1.length + (((specCont t rest).2.1.take k).flatten).length) + 1
        from by omega]
      rw [List.get?_cons_succ]
    · rw [if_pos rfl]
      dsimp only
      cases k with
      | zero => simp
      | succ k =>
        rw [List.get?_cons_succ, ih t k]
        simp only [List.map_cons, List.take_succ_cons, List.flatten_cons, List.length_nil,
          Nat.zero_add, List.length_append, List.length_cons]
        rw [show (specCont t rest).1.length + 1 +
            (((specCont t rest).2.1.take k).flatten).length =
            ((specCont t rest).1.length + (((specCont t rest).2.1.take k).flatten).length) + 1
          from by omega]
        rw [List.get?_cons_succ]

theorem specDecode_length (sent : List Char) (tags : List String) :
    (specDecode sent tags).1.length = (specDecode sent tags).2.length := by
  unfold specDecode
  cases hz : sent.zip tags with
  | nil => rfl
  | cons p rest =>
    obtain ⟨c, t⟩ := p
    dsimp only
    simp [specCont_length t rest]

theorem specDecode_tags_get (sent : List Char) (tags : List String)
    (hlen : tags.length ≤ sent.length) : ∀ (k : Nat),
    (specDecode sent tags).2.get? k =
      tags.get? (((specDecode sent tags).1.take k).flatten.length) := by
  cases tags with
  | nil =>
    intro k
    simp [specDecode, List.zip_nil_right]
  | cons t tags' =>
    cases sent with
    | nil => simp at hlen
    | cons c sent' =>
      intro k
      have hlen' : tags'.length ≤ sent'.length := by
        simp only [List.length_cons] at hlen
        omega
      simp only [specDecode, List.zip_cons_cons]
      cases k with
      | zero => simp
      | succ k =>
        rw [List.get?_cons_succ, specCont_tags_get]
        rw [List.map_snd_zip sent' tags' hlen']
        simp only [List.take_succ_cons, List.flatten_cons, List.length_append,
          List.length_cons]
        rw [show (specCont t (sent'.zip tags')).1.length + 1 +
            ((((specCont t (sent'.zip tags')).2.1.take k).flatten)).length =
            ((specCont t (sent'.zip tags')).1.length +
             ((((specCont t (sent'.zip tags')).2.1.take k).flatten)).length) + 1
          from by omega]
        rw [List.get?_cons_succ]

theorem mapExcept_ok_length (f : α → Except ε β) : ∀ (xs : List α) (rs : List β),
    mapExcept f xs = .ok rs → rs.length = xs.length := by
  intro xs
  induction xs with
  | nil =>
    intro rs h
    cases h
    rfl
  | cons a as ih =>
    intro rs h
    simp only [mapExcept] at h
    cases hfa : f a with
    | error e => rw [hfa] at h; cases h
    | ok b =>
      rw [hfa] at h
      cases hm : mapExcept f as with
      | error e => rw [hm] at h; cases h
      | ok bs =>
        rw [hm] at h
        cases h
        simp [ih bs hm]

theorem mapExcept_ok_get (f : α → Except ε β) : ∀ (xs : List α) (rs : List β),
    mapExcept f xs = .ok rs → ∀ (i : Nat) (x : α) (r : β),
    xs.get? i = some x → rs.get? i = some r → f x = .ok r := by
  intro xs
  induction xs with
  | nil => intro rs h i x r hx hr; cases hx
  | cons a as ih =>
    intro rs h i x r hx hr
    simp only [mapExcept] at h
    cases hfa : f a with
    | error e => rw [hfa] at h; cases h
    | ok b =>
      rw [hfa] at h
      cases hm : mapExcept f as with
      | error e => rw [hm] at h; cases h
      | ok bs =>
        rw [hm] at h
        cases h
        cases i with
        | zero =>
          cases hx
          cases hr
          exact hfa
        | succ i => exact ih bs hm i x r hx hr

theorem mapExcept_isOk (f : α → Except ε β) : ∀ (xs : List α),
    (∀ x ∈ xs, ∃ y, f x = .ok y) → ∃ rs, mapExcept f xs = .ok rs := by
  intro xs
  induction xs with
  | nil => intro h; exact ⟨[], rfl⟩
  | cons a as ih =>
    intro h
    obtain ⟨b, hb⟩ := h a (List.mem_cons_self a as)
    obtain ⟨bs, hbs⟩ := ih (fun x hx => h x (List.mem_cons_of_mem a hx))
    refine ⟨b :: bs, ?_⟩
    simp only [mapExcept]
    rw [hb, hbs]

theorem decodeOne_inv (id2tag : List (String × String)) (sent : List Char)
    (pred : List Int) (len : Int) (r : LacRecord)
    (h : decodeOne id2tag sent pred len = .ok r) :
    ∃ tagsList, decodeTags id2tag pred len = .ok tagsList ∧
      decodeSent sent tagsList = .ok (r.segs, r.tags) ∧ r.text = sent := by
  unfold decodeOne at h
  cases ht : decodeTags id2tag pred len with
  | error e => rw [ht] at h; cases h
  | ok tags =>
    rw [ht] at h
    dsimp only at h
    cases hs : decodeSent sent tags with
    | error e => rw [hs] at h; cases h
    | ok pr =>
      rw [hs] at h
      dsimp only at h
      obtain ⟨so, tout⟩ := pr
      cases h
      exact ⟨tags, rfl, hs, rfl⟩

theorem postprocessOne_eq (id2tag : List (String × String)) (sents : List (List Char))
    (preds : List (List Int)) (lens : List Int) (i : Nat) (s : List Char)
    (p : List Int) (l : Int) (hs : sents.get? i = some s) (hp : preds.get? i = some p)
    (hl : lens.get? i = some l) :
    postprocessOne id2tag sents preds lens i = decodeOne id2tag s p l := by
  unfold postprocessOne decodeOne
  rw [pyGet_ofNat, pyGet_ofNat, pyGet_ofNat, hs, hp, hl]

theorem postprocess_go (id2tag : List (String × String)) (sents : List (List Char))
    (preds : List (List Int)) (lens : List Int) :
    ∀ (ls : List Int) (ss : List (List Char)) (ps : List (List Int)) (i : Nat),
    sents.drop i = ss → preds.drop i = ps → lens.drop i = ls →
    ss.length = ls.length → ps.length = ls.length →
    mapExcept (postprocessOne id2tag sents preds lens) (List.range' i ls.length) =
      mapExcept (fun q => decodeOne id2tag q.1 q.2.1 q.2.2) (ss.zip (ps.zip ls)) := by
  intro ls
  induction ls with
  | nil =>
    intro ss ps i hss hps hls h1 h2
    have hss0 : ss = [] := List.length_eq_zero.mp (by simpa using h1)
    subst hss0
    rfl
  | cons l ls' ih =>
    intro ss ps i hss hps hls h1 h2
    cases ss with
    | nil => simp at h1
    | cons s ss' =>
      cases ps with
      | nil => simp at h2
      | cons p ps' =>
        obtain ⟨hsg, hsd⟩ := drop_cons_inv sents i s ss' hss
        obtain ⟨hpg, hpd⟩ := drop_cons_inv preds i p ps' hps
        obtain ⟨hlg, hld⟩ := drop_cons_inv lens i l ls' hls
        rw [List.length_cons, List.range'_succ]
        simp only [mapExcept, List.zip_cons_cons]
        rw [postprocessOne_eq id2tag sents preds lens i s p l hsg hpg hlg]
        rw [ih ss' ps' (i + 1) hsd hpd hld (by simpa using h1) (by simpa using h2)]
        rfl

theorem lineTerms_length_pos (l : String) : 1 ≤ (lineTerms l).length := by
  have h := pySplit_ne_nil '\t' (pyStripNL l).data
  have : lineTerms l ≠ [] := h
  have := List.length_pos.mpr this
  omega

theorem lookupD_insert_self (d : List (String × α)) (k : String) (v : α) :
    lookupD (dictInsert d k v) k = some v := by
  unfold lookupD dictInsert
  rw [List.find?_cons_of_pos _ (by simp)]
  rfl

theorem lookupD_insert_ne (d : List (String × α)) (k k' : String) (v : α) (h : k' ≠ k) :
    lookupD (dictInsert d k v) k' = lookupD d k' := by
  unfold lookupD dictInsert
  rw [List.find?_cons_of_neg _ (by simp [Ne.symm h])]

theorem globalReverse_cons_of_ne (line : String) (rest : List String)
    (h : (lineTerms line).length ≠ 2) : globalReverse (line :: rest) = globalReverse rest := by
  unfold globalReverse
  rw [List.find?_cons_of_neg _ (by simp [h])]

theorem globalReverse_cons_of_two (line : String) (rest : List String)
    (h : (lineTerms line).length = 2) :
    globalReverse (line :: rest) = some (pyIsdigit (term line 0)) := by
  unfold globalReverse
  rw [List.find?_cons_of_pos _ (by simp [h])]

theorem loadVocabAux_isOk_iff : ∀ (rest : List String) (i : Nat) (rev : Option Bool)
    (acc : List (String × VocabVal)),
    exceptIsOk (loadVocabAux rest i rev acc) = false ↔
      ∃ l ∈ rest, 3 ≤ (lineTerms l).length := by
  intro rest
  induction rest with
  | nil => intro i rev acc; simp [loadVocabAux, exceptIsOk]
  | cons line rest' ih =>
    intro i rev acc
    simp only [loadVocabAux]
    by_cases h2 : (lineTerms line).length = 2
    · rw [if_pos h2]
      by_cases hb : resolveReverse rev line = some true
      · rw [if_pos hb, ih]
        simp [h2]
      · rw [if_neg hb, ih]
        simp [h2]
    · by_cases h1 : (lineTerms line).length = 1
      · rw [if_neg h2, if_pos h1, ih]
        simp [h1]
      · rw [if_neg h2, if_neg h1]
        have h3 : 3 ≤ (lineTerms line).length := by
          have := lineTerms_length_pos line
          omega
        simp only [exceptIsOk]
        constructor
        · intro _
          exact ⟨line, List.mem_cons_self _ _, h3⟩
        · intro _
          trivial

theorem loadVocabAux_extends : ∀ (rest : List String) (i : Nat) (rev : Option Bool)
    (acc vocab : List (String × VocabVal)),
    loadVocabAux rest i rev acc = .ok vocab → ∃ pre, vocab = pre ++ acc := by
  intro rest
  induction rest with
  | nil =>
    intro i rev acc vocab h
    cases h
    exact ⟨[], rfl⟩
  | cons line rest' ih =>
    intro i rev acc vocab h
    simp only [loadVocabAux] at h
    by_cases h2 : (lineTerms line).length = 2
    · rw [if_pos h2] at h
      by_cases hb : resolveReverse rev line = some true
      · rw [if_pos hb] at h
        obtain ⟨pre, hp⟩ := ih _ _ _ _ h
        exact ⟨pre ++ [(term line 1, .vstr (term line 0))], by rw [hp]; simp [dictInsert]⟩
      · rw [if_neg hb] at h
        obtain ⟨pre, hp⟩ := ih _ _ _ _ h
        exact ⟨pre ++ [(term line 0, .vstr (term line 1))], by rw [hp]; simp [dictInsert]⟩
    · by_cases h1 : (lineTerms line).length = 1
      · rw [if_neg h2, if_pos h1] at h
        obtain ⟨pre, hp⟩ := ih _ _ _ _ h
        exact ⟨pre ++ [(term line 0, .vint i)], by rw [hp]; simp [dictInsert]⟩
      · rw [if_neg h2, if_neg h1] at h
        cases h

theorem loadVocabAux_untouched : ∀ (rest : List String) (i : Nat) (rev : Option Bool)
    (acc vocab : List (String × VocabVal)) (gr : Option Bool),
    (∀ b, rev = some b → gr = some b) → (rev = none → gr = globalReverse rest) →
    loadVocabAux rest i rev acc = .ok vocab →
    ∀ k : String, (∀ l ∈ rest, lineKey gr l ≠ some k) → lookupD vocab k = lookupD acc k := by
  intro rest
  induction rest with
  | nil =>
    intro i rev acc vocab gr hsome hnone h k hk
    cases h
    rfl
  | cons line rest' ih =>
    intro i rev acc vocab gr hsome hnone h k hk
    simp only [loadVocabAux] at h
    by_cases h2 : (lineTerms line).length = 2
    · rw [if_pos h2] at h
      have hrg : resolveReverse rev line = gr := by
        cases rev with
        | none =>
          rw [hnone rfl, globalReverse_cons_of_two line rest' h2]
          rfl
        | some b => rw [hsome b rfl]; rfl
      rw [hrg] at h
      have hkey : lineKey gr line =
          some (if gr = some true then term line 1 else term line 0) := by
        simp [lineKey, h2]
      have hkne : (if gr = some true then term line 1 else term line 0) ≠ k := by
        intro he
        exact hk line (List.mem_cons_self _ _) (by rw [hkey, he])
      have hsome' : ∀ b, gr = some b → gr = some b := fun b hb => hb
      have hgrsome : ∃ b, gr = some b := by
        cases rev with
        | none =>
          rw [hnone rfl, globalReverse_cons_of_two line rest' h2]
          exact ⟨_, rfl⟩
        | some b => exact ⟨b, hsome b rfl⟩
      have hgrnone : gr = none → gr = globalReverse rest' := by
        intro hn
        obtain ⟨b, hb'⟩ := hgrsome
        rw [hb'] at hn
        cases hn
      by_cases hb : gr = some true
      · rw [if_pos hb] at h
        rw [ih (i + 1) gr _ vocab gr hsome' hgrnone h k
          (fun l hl => hk l (List.mem_cons_of_mem _ hl))]
        exact lookupD_insert_ne acc _ k _ (fun he => hkne (by rw [if_pos hb]; exact he.symm))
      · rw [if_neg hb] at h
        rw [ih (i + 1) gr _ vocab gr hsome' hgrnone h k
          (fun l hl => hk l (List.mem_cons_of_mem _ hl))]
        exact lookupD_insert_ne acc _ k _ (fun he => hkne (by rw [if_neg hb]; exact he.symm))
    · by_cases h1 : (lineTerms line).length = 1
      · rw [if_neg h2, if_pos h1] at h
        have hkey : lineKey gr line = some (term line 0) := by
          simp [lineKey, h2, h1]
        have hkne : term line 0 ≠ k := by
          intro he
          exact hk line (List.mem_cons_self _ _) (by rw [hkey, he])
        rw [ih (i + 1) rev _ vocab gr hsome
          (fun hn => by rw [hnone hn, globalReverse_cons_of_ne line rest' h2]) h k
          (fun l hl => hk l (List.mem_cons_of_mem _ hl))]
        exact lookupD_insert_ne acc _ k _ (Ne.symm hkne)
      · rw [if_neg h2, if_neg h1] at h
        cases h

theorem loadVocabAux_spec : ∀ (rest : List String) (i : Nat) (rev : Option Bool)
    (acc vocab : List (String × VocabVal)) (gr : Option Bool),
    (∀ b, rev = some b → gr = some b) → (rev = none → gr = globalReverse rest) →
    loadVocabAux rest i rev acc = .ok vocab →
    (rest.filterMap (lineKey gr)).Nodup →
    ∀ (k : Nat) (hk : k < rest.length),
      ((lineTerms (rest.get ⟨k, hk⟩)).length = 1 →
        lookupD vocab (term (rest.get ⟨k, hk⟩) 0) = some (.vint (i + k))) ∧
      ((lineTerms (rest.get ⟨k, hk⟩)).length = 2 →
        (gr = some true →
           (term (rest.get ⟨k, hk⟩) 1, VocabVal.vstr (term (rest.get ⟨k, hk⟩) 0)) ∈ vocab) ∧
        (gr ≠ some true →
           (term (rest.get ⟨k, hk⟩) 0, VocabVal.vstr (term (rest.get ⟨k, hk⟩) 1)) ∈ vocab)) := by
  intro rest
  induction rest with
  | nil =>
    intro i rev acc vocab gr hsome hnone h hnd k hk
    simp at hk
  | cons line rest' ih =>
    intro i rev acc vocab gr hsome hnone h hnd k hk
    simp only [loadVocabAux] at h
    by_cases h2 : (lineTerms line).length = 2
    · rw [if_pos h2] at h
      have hrg : resolveReverse rev line = gr := by
        cases rev with
        | none =>
          rw [hnone rfl, globalReverse_cons_of_two line rest' h2]
          rfl
        | some b => rw [hsome b rfl]; rfl
      rw [hrg] at h
      have hsome' : ∀ b, gr = some b → gr = some b := fun b hb => hb
      have hgrsome : ∃ b, gr = some b := by
        cases rev with
        | none =>
          rw [hnone rfl, globalReverse_cons_of_two line rest' h2]
          exact ⟨_, rfl⟩
        | some b => exact ⟨b, hsome b rfl⟩
      have hgrnone : gr = none → gr = globalReverse rest' := by
        intro hn
        obtain ⟨b, hb'⟩ := hgrsome
        rw [hb'] at hn
        cases hn
      have hkey : lineKey gr line =
          some (if gr = some true then term line 1 else term line 0) := by
        simp [lineKey, h2]
      have hnd' : (rest'.filterMap (lineKey gr)).Nodup := by
        rw [List.filterMap_cons, hkey] at hnd
        exact (List.nodup_cons.mp hnd).2
      have hnotin : (if gr = some true then term line 1 else term line 0) ∉
          rest'.filterMap (lineKey gr) := by
        rw [List.filterMap_cons, hkey] at hnd
        exact (List.nodup_cons.mp hnd).1
      by_cases hb : gr = some true
      · rw [if_pos hb] at h
        cases k with
        | zero =>
          constructor
          · intro h1
            have h1' : (lineTerms line).length = 1 := h1
            exfalso
            omega
          · intro _
            refine ⟨fun _ => ?_, fun hc => absurd hb hc⟩
            obtain ⟨pre, hp⟩ := loadVocabAux_extends rest' (i + 1) gr _ vocab h
            rw [hp]
            exact List.mem_append_right _ (List.mem_cons_self _ _)
        | succ k =>
          have hk' : k < rest'.length := by simpa using hk
          have := ih (i + 1) gr _ vocab gr hsome' hgrnone h hnd' k hk'
          rw [show i + 1 + k = i + (k + 1) from by omega] at this
          exact this
      · rw [if_neg hb] at h
        cases k with
        | zero =>
          constructor
          · intro h1
            have h1' : (lineTerms line).length = 1 := h1
            exfalso
            omega
          · intro _
            refine ⟨fun hc => absurd hc hb, fun _ => ?_⟩
            obtain ⟨pre, hp⟩ := loadVocabAux_extends rest' (i + 1) gr _ vocab h
            rw [hp]
            exact List.mem_append_right _ (List.mem_cons_self _ _)
        | succ k =>
          have hk' : k < rest'.length := by simpa using hk
          have := ih (i + 1) gr _ vocab gr hsome' hgrnone h hnd' k hk'
          rw [show i + 1 + k = i + (k + 1) from by omega] at this
          exact this
    · by_cases h1 : (lineTerms line).length = 1
      · rw [if_neg h2, if_pos h1] at h
        have hgrnone : rev = none → gr = globalReverse rest' := by
          intro hn
          rw [hnone hn, globalReverse_cons_of_ne line rest' h2]
        have hkey : lineKey gr line = some (term line 0) := by
          simp [lineKey, h2, h1]
        have hnd' : (rest'.filterMap (lineKey gr)).Nodup := by
          rw [List.filterMap_cons, hkey] at hnd
          exact (List.nodup_cons.mp hnd).2
        have hnotin : term line 0 ∉ rest'.filterMap (lineKey gr) := by
          rw [List.filterMap_cons, hkey] at hnd
          exact (List.nodup_cons.mp hnd).1
        cases k with
        | zero =>
          constructor
          · intro _
            have huntouched := loadVocabAux_untouched rest' (i + 1) rev _ vocab gr hsome
              hgrnone h (term line 0)
              (fun l hl hkl => hnotin (List.mem_filterMap.mpr ⟨l, hl, hkl⟩))
            show lookupD vocab (term line 0) = some (VocabVal.vint (i + 0))
            rw [huntouched, lookupD_insert_self]
            simp
          · intro hc
            have hc' : (lineTerms line).length = 2 := hc
            exfalso
            omega
        | succ k =>
          have hk' : k < rest'.length := by simpa using hk
          have := ih (i + 1) rev _ vocab gr hsome hgrnone h hnd' k hk'
          rw [show i + 1 + k = i + (k + 1) from by omega] at this
          exact this
      · rw [if_neg h2, if_neg h1] at h
        cases h

theorem getD_eq_of_get? (l : List α) (i : Nat) (d a : α) (h : l.get? i = some a) :
    l.getD i d = a := by
  have hlt : i < l.length := get?_some_lt h
  rw [List.getD_eq_get l d hlt]
  rw [List.get?_eq_get hlt] at h
  exact Option.some.inj h

theorem kwargsContains_eq_isSome (kwargs : List (String × Nat)) (key : String) :
    kwargsContains kwargs key = (lookupD kwargs key).isSome := by
  induction kwargs with
  | nil => rfl
  | cons p ps ih =>
    cases hpk : (p.1 == key)
    · unfold kwargsContains lookupD
      rw [List.any_cons, List.find?_cons_of_neg _ (by simp [hpk])]
      unfold kwargsContains lookupD at ih
      simp [hpk, ih]
    · unfold kwargsContains lookupD
      rw [List.any_cons, List.find?_cons_of_pos _ (by simp [hpk])]
      simp [hpk]

theorem specDecode_tags_sub (sent : List Char) (tags : List String) :
    ∀ x ∈ (specDecode sent tags).2, x ∈ tags := by
  intro x hx
  unfold specDecode at hx
  cases hz : sent.zip tags with
  | nil => rw [hz] at hx; cases hx
  | cons p rest =>
    rw [hz] at hx
    obtain ⟨c, t⟩ := p
    dsimp only at hx
    have hmem : ∀ y, y ∈ (c, t) :: rest → y.2 ∈ tags := by
      intro y hy
      rw [← hz] at hy
      exact (List.of_mem_zip hy).2
    rcases List.mem_cons.mp hx with h' | h'
    · rw [h']
      exact hmem (c, t) (List.mem_cons_self _ _)
    · have := specCont_mem_tags rest t x h'
      obtain ⟨y, hy, hyx⟩ := List.mem_map.mp this
      rw [← hyx]
      exact hmem y (List.mem_cons_of_mem _ hy)

/-! ### Claim theorems -/

/-- C1: for tag lists no longer than the sentence, the decode loop of
`_postprocess` starts a new segment exactly at index 0, at every index
whose tag ends with "-B", and at every index whose tag is "O" while the
previous tag is not "O"; every other index appends `sent[ind]` to the
accumulating segment, and the segment still accumulating at loop end is
appended as the last segment.  `specDecode`/`specCont` are the spec-side
statement of exactly that segmentation rule, and the loop's output equals
it (the emitted tags being the coarse forms of the tags at the segment
starts). -/
theorem c1_decode_segment_starts (sent : List Char) (tags : List String)
    (hlen : tags.length ≤ sent.length) :
    decodeSent sent tags =
      .ok ((specDecode sent tags).1, (specDecode sent tags).2.map pyCoarse) :=
  decodeSent_eq_spec sent tags hlen

theorem c1_decode_segment_starts_witness :
    (["nz-B", "nz-I", "nz-I", "v-B"] : List String).length ≤ "LAC是个".data.length ∧
    decodeSent "LAC是个".data ["nz-B", "nz-I", "nz-I", "v-B"] =
      .ok ((specDecode "LAC是个".data ["nz-B", "nz-I", "nz-I", "v-B"]).1,
           (specDecode "LAC是个".data ["nz-B", "nz-I", "nz-I", "v-B"]).2.map pyCoarse) :=
  ⟨by decide, c1_decode_segment_starts "LAC是个".data ["nz-B", "nz-I", "nz-I", "v-B"]
    (by decide)⟩

/-- C2: the concatenation, in order, of the segments produced by the
decode loop equals the first `len(tags)` characters of the sentence, so
every one of those characters lands in exactly one segment with order
preserved. -/
theorem c2_segments_concat (sent : List Char) (tags : List String)
    (hlen : tags.length ≤ sent.length) :
    ∃ segs tout, decodeSent sent tags = .ok (segs, tout) ∧
      segs.flatten = sent.take tags.length := by
  refine ⟨(specDecode sent tags).1, (specDecode sent tags).2.map pyCoarse,
    decodeSent_eq_spec sent tags hlen, ?_⟩
  have hfst : ((sent.take tags.length).zip tags).map Prod.fst = sent.take tags.length :=
    List.map_fst_zip _ _ (by rw [List.length_take]; exact min_le_left _ _)
  rw [specDecode_join, zip_take_left sent tags, hfst]

theorem c2_segments_concat_witness :
    (["O", "O", "a-B"] : List String).length ≤ "abcd".data.length ∧
    ∃ segs tout, decodeSent "abcd".data ["O", "O", "a-B"] = .ok (segs, tout) ∧
      segs.flatten = "abcd".data.take (["O", "O", "a-B"] : List String).length :=
  ⟨by decide, c2_segments_concat "abcd".data ["O", "O", "a-B"] (by decide)⟩

/-- C3: every record `_postprocess` produces (including for an empty
decoded tag list) has `segs` and `tags` of equal length, and the `k`-th
entry of `tags` is the coarse form of the per-character tag at the
starting index of the `k`-th segment (that index being the total length
of the preceding segments). -/
theorem c3_tags_align (id2tag : List (String × String)) (sent : List Char)
    (pred : List Int) (len : Int) (r : LacRecord)
    (h : decodeOne id2tag sent pred len = .ok r) :
    r.segs.length = r.tags.length ∧
    ∃ tagsList, decodeTags id2tag pred len = .ok tagsList ∧
      ∀ k : Nat, r.tags.get? k =
        (tagsList.get? ((r.segs.take k).flatten.length)).map pyCoarse := by
  obtain ⟨tagsList, ht, hs, htext⟩ := decodeOne_inv id2tag sent pred len r h
  have hlen := decodeSent_ok_le sent tagsList (r.segs, r.tags) hs
  rw [decodeSent_eq_spec sent tagsList hlen] at hs
  have hpair := Except.ok.inj hs
  have hsegs : (specDecode sent tagsList).1 = r.segs := congrArg Prod.fst hpair
  have htags : (specDecode sent tagsList).2.map pyCoarse = r.tags := congrArg Prod.snd hpair
  constructor
  · rw [← hsegs, ← htags, List.length_map, specDecode_length]
  · refine ⟨tagsList, ht, fun k => ?_⟩
    rw [← hsegs, ← htags, List.get?_map, specDecode_tags_get sent tagsList hlen k]

theorem c3_tags_align_witness :
    (⟨"三亚".data, ["三亚".data], ["LOC"]⟩ : LacRecord).segs.length =
      (⟨"三亚".data, ["三亚".data], ["LOC"]⟩ : LacRecord).tags.length ∧
    ∃ tagsList, decodeTags [("0", "LOC-B"), ("1", "LOC-I")] [0, 1] 2 = .ok tagsList ∧
      ∀ k : Nat, (⟨"三亚".data, ["三亚".data], ["LOC"]⟩ : LacRecord).tags.get? k =
        (tagsList.get? (((⟨"三亚".data, ["三亚".data], ["LOC"]⟩ : LacRecord).segs.take
          k).flatten.length)).map pyCoarse :=
  c3_tags_align [("0", "LOC-B"), ("1", "LOC-I")] "三亚".data [0, 1] 2
    ⟨"三亚".data, ["三亚".data], ["LOC"]⟩ rfl

/-- C4 counterexample: a list whose element is not a string is neither a
string nor a list of strings, yet `_preprocess`'s validation does not
raise `TypeError` on it, so "raises TypeError if and only if the input is
neither a string nor a list of strings" fails in the "if" direction at
the concrete input `[0]`. -/
theorem c4_counterexample :
    ¬ ((exceptIsOk (lacPreprocessCheck (PyObj.plist [PyObj.pint 0])) = false) ↔
       (specIsStrOrListOfStr (PyObj.plist [PyObj.pint 0]) = false)) := by
  decide

/-- C4 amended: `_preprocess` raises `TypeError` if and only if its input
text argument is neither a `str` nor a `list` (the elements of a list are
not checked); a string input and a list input never trigger the error,
and no other input-validation error is raised. -/
theorem c4_type_check_amended (x : PyObj) :
    exceptIsOk (lacPreprocessCheck x) = false ↔
      (pyIsStr x = false ∧ pyIsList x = false) := by
  cases x with
  | pstr s => simp [lacPreprocessCheck, pyIsStr, pyIsList, exceptIsOk]
  | pint n => simp [lacPreprocessCheck, pyIsStr, pyIsList, exceptIsOk]
  | plist xs => simp [lacPreprocessCheck, pyIsStr, pyIsList, exceptIsOk]

/-- C5: the text-to-id stage of `_preprocess` keeps only the first
`max_seq_len` characters (`max_seq_len` defaulting to 64 when absent from
the kwargs), maps each kept character through the q2b dict and then the
word dict with the `"OOV"` entry as fallback, and yields a length equal to
the number of kept characters. -/
theorem c5_encode_spec (q2b : List (String × String)) (wv : List (String × VocabVal))
    (kwargs : List (String × Nat)) (sent : List Char) :
    (readEncode q2b wv (getKwargNat kwargs "max_seq_len" 64) sent).1 =
      (sent.take (getKwargNat kwargs "max_seq_len" 64)).map (specEncodeChar q2b wv) ∧
    (readEncode q2b wv (getKwargNat kwargs "max_seq_len" 64) sent).2 =
      min (getKwargNat kwargs "max_seq_len" 64) sent.length ∧
    getKwargNat kwargs "max_seq_len" 64 = (lookupD kwargs "max_seq_len").getD 64 := by
  have key : ∀ (toks : List Char) (acc : List (Option VocabVal)),
      (toks.map (fun c => String.mk [c])).foldl (fun ids token =>
        ids ++ [match lookupD wv ((lookupD q2b token).getD token) with
                | some v => some v
                | none => lookupD wv "OOV"]) acc
      = acc ++ toks.map (specEncodeChar q2b wv) := by
    intro toks
    induction toks with
    | nil => intro acc; simp
    | cons c cs ih =>
      intro acc
      simp only [List.map_cons, List.foldl_cons, ih, specEncodeChar]
      simp [List.append_assoc]
  have hfold : ∀ msl : Nat, (readEncode q2b wv msl sent).1 =
      (sent.take msl).map (specEncodeChar q2b wv) := by
    intro msl
    unfold readEncode
    dsimp only
    simpa using key (sent.take msl) []
  refine ⟨hfold _, ?_, ?_⟩
  · have : (readEncode q2b wv (getKwargNat kwargs "max_seq_len" 64) sent).2 =
        (readEncode q2b wv (getKwargNat kwargs "max_seq_len" 64) sent).1.length := rfl
    rw [this, hfold, List.length_map, List.length_take]
  · unfold getKwargNat
    rw [kwargsContains_eq_isSome]
    cases hfind : lookupD kwargs "max_seq_len" with
    | none => simp
    | some v => simp

/-- C6: every entry of the output `tags` list is the coarse form of one of
the decoded per-character tags, where the coarse form of a tag is the
substring before its first `-` character, and the tag itself unchanged
when it contains no `-`. -/
theorem c6_coarse_tags :
    (∀ t : String, pyCoarse t = String.mk (t.data.takeWhile (fun c => !(c == '-'))) ∧
       ('-' ∉ t.data → pyCoarse t = t)) ∧
    (∀ (id2tag : List (String × String)) (sent : List Char) (pred : List Int)
       (len : Int) (r : LacRecord) (tagsList : List String),
       decodeTags id2tag pred len = .ok tagsList →
       decodeOne id2tag sent pred len = .ok r →
       ∀ x ∈ r.tags, ∃ t ∈ tagsList, x = pyCoarse t) := by
  constructor
  · intro t
    exact ⟨pyCoarse_eq_takeWhile t, pyCoarse_of_no_dash t⟩
  · intro id2tag sent pred len r tagsList ht h x hx
    obtain ⟨tagsList', ht', hs, _⟩ := decodeOne_inv id2tag sent pred len r h
    rw [ht] at ht'
    have hT : tagsList = tagsList' := Except.ok.inj ht'
    subst hT
    have hlen := decodeSent_ok_le sent tagsList (r.segs, r.tags) hs
    rw [decodeSent_eq_spec sent tagsList hlen] at hs
    have htags : (specDecode sent tagsList).2.map pyCoarse = r.tags :=
      congrArg Prod.snd (Except.ok.inj hs)
    rw [← htags] at hx
    obtain ⟨t, htmem, hxt⟩ := List.mem_map.mp hx
    exact ⟨t, specDecode_tags_sub sent tagsList t htmem, hxt.symm⟩

theorem c6_coarse_tags_witness :
    ∀ x ∈ (⟨"三亚".data, ["三亚".data], ["LOC"]⟩ : LacRecord).tags,
      ∃ t ∈ ["LOC-B", "LOC-I"], x = pyCoarse t :=
  c6_coarse_tags.2 [("0", "LOC-B"), ("1", "LOC-I")] "三亚".data [0, 1] 2
    ⟨"三亚".data, ["三亚".data], ["LOC"]⟩ ["LOC-B", "LOC-I"] rfl rfl

/-- C9: a sentence whose decoded tag list is empty (such as one whose
length entry is zero, which is what the encoding of the empty string
yields) produces a record with the original text, an empty `segs` list
and an empty `tags` list, without raising any error. -/
theorem c9_empty_decode (id2tag : List (String × String)) (sent : List Char)
    (preds : List Int) :
    decodeOne id2tag sent preds 0 = .ok ⟨sent, [], []⟩ ∧
    (∀ (q2b : List (String × String)) (wv : List (String × VocabVal)) (msl : Nat),
      readEncode q2b wv msl [] = ([], 0)) := by
  constructor
  · rfl
  · intro q2b wv msl
    simp [readEncode]

/-- C7: `_postprocess` is a per-sentence map: with parallel `text`,
`result` and `lens` lists of equal length, it equals the element-wise
decode of each `(text[i], result[i], lens[i])` triple taken alone, the
records come out in input order, and each successful record's `text`
field is the `i`-th original input string. -/
theorem c7_postprocess_map (id2tag : List (String × String)) (sents : List (List Char))
    (preds : List (List Int)) (lens : List Int)
    (h1 : sents.length = lens.length) (h2 : preds.length = lens.length) :
    postprocess id2tag sents preds lens =
      mapExcept (fun q => decodeOne id2tag q.1 q.2.1 q.2.2) (sents.zip (preds.zip lens)) ∧
    ∀ rs, postprocess id2tag sents preds lens = .ok rs →
      rs.length = lens.length ∧
      ∀ (i : Nat) (hi : i < rs.length), (rs.get ⟨i, hi⟩).text = sents.getD i [] := by
  have hmain : postprocess id2tag sents preds lens =
      mapExcept (fun q => decodeOne id2tag q.1 q.2.1 q.2.2) (sents.zip (preds.zip lens)) := by
    unfold postprocess
    rw [List.range_eq_range']
    exact postprocess_go id2tag sents preds lens lens sents preds 0
      (List.drop_zero _) (List.drop_zero _) (List.drop_zero _) h1 h2
  refine ⟨hmain, fun rs hrs => ?_⟩
  rw [hmain] at hrs
  have hlenz : (sents.zip (preds.zip lens)).length = lens.length := by
    simp only [List.length_zip]
    omega
  have hrslen := mapExcept_ok_length _ _ _ hrs
  refine ⟨by omega, fun i hi => ?_⟩
  have hslen : i < sents.length := by omega
  have hplen : i < preds.length := by omega
  have hllen : i < lens.length := by omega
  have hs' : sents.get? i = some (sents.get ⟨i, hslen⟩) := List.get?_eq_get hslen
  have hp' : preds.get? i = some (preds.get ⟨i, hplen⟩) := List.get?_eq_get hplen
  have hl' : lens.get? i = some (lens.get ⟨i, hllen⟩) := List.get?_eq_get hllen
  have hzget : (sents.zip (preds.zip lens)).get? i =
      some (sents.get ⟨i, hslen⟩, preds.get ⟨i, hplen⟩, lens.get ⟨i, hllen⟩) := by
    rw [zip_get?, zip_get?, hs', hp', hl']
    rfl
  have hrget : rs.get? i = some (rs.get ⟨i, hi⟩) := List.get?_eq_get hi
  have hone := mapExcept_ok_get _ _ _ hrs i _ _ hzget hrget
  obtain ⟨_, _, _, htext⟩ := decodeOne_inv _ _ _ _ _ hone
  rw [htext]
  exact (getD_eq_of_get? sents i [] _ hs').symm

theorem c7_postprocess_map_witness :
    postprocess [("0", "O")] [['a']] [[0]] [1] =
      mapExcept (fun q => decodeOne [("0", "O")] q.1 q.2.1 q.2.2)
        (([['a']] : List (List Char)).zip (([[0]] : List (List Int)).zip [1])) ∧
    ∀ rs, postprocess [("0", "O")] [['a']] [[0]] [1] = .ok rs →
      rs.length = ([1] : List Int).length ∧
      ∀ (i : Nat) (hi : i < rs.length), (rs.get ⟨i, hi⟩).text =
        ([['a']] : List (List Char)).getD i [] :=
  c7_postprocess_map [("0", "O")] [['a']] [[0]] [1] rfl rfl

/-- C8 counterexample: with `sents = ["a"]`, `preds = [[0,0,0,0]]`,
`lens = [-1]` and the id `0` mapped to tag `"O"`, the claim's stated
preconditions hold (`lens[0] = -1 <= 1 = len(sents[0])`, and every id of
`preds[0][:-1] = [0,0,0]` is a key of the dict), yet `_postprocess`
raises an `IndexError`: Python's negative slice keeps three predictions
for a one-character sentence, so `sent[1]` is out of bounds. -/
theorem c8_counterexample :
    ((-1 : Int) ≤ ((([['a']] : List (List Char)).getD 0 []).length : Int)) ∧
    (∀ id ∈ pyTakeTo ([0, 0, 0, 0] : List Int) (-1),
       (lookupD [("0", "O")] (toString id)).isSome = true) ∧
    postprocess [("0", "O")] [['a']] [[0, 0, 0, 0]] [-1] = .error .indexError := by
  refine ⟨by decide, by decide, rfl⟩

/-- C8 amended: under the preconditions that the `lens` list is no longer
than `sents` and `preds`, and that for every sentence index `i` the length
entry is nonnegative and at most `len(sents[i])` and every prediction id
in `preds[i][:lens[i]]` (as a string) is a key of the id-to-tag dict,
every indexing operation in `_postprocess` is in bounds and every lookup
succeeds, so the embedded function returns ok: no error branch is
reachable.  (The nonnegativity condition is forced by the counterexample:
a negative length entry slices from the end and can leave more tags than
characters.) -/
theorem c8_safety_amended (id2tag : List (String × String)) (sents : List (List Char))
    (preds : List (List Int)) (lens : List Int)
    (hs : lens.length ≤ sents.length) (hp : lens.length ≤ preds.length)
    (hcond : ∀ i, i < lens.length →
      0 ≤ lens.getD i 0 ∧
      lens.getD i 0 ≤ ((sents.getD i []).length : Int) ∧
      ∀ id ∈ pyTakeTo (preds.getD i []) (lens.getD i 0),
        (lookupD id2tag (toString id)).isSome = true) :
    ∃ rs, postprocess id2tag sents preds lens = .ok rs := by
  unfold postprocess
  apply mapExcept_isOk
  intro i hi
  have hi' : i < lens.length := by simpa [List.mem_range] using hi
  have hslen : i < sents.length := lt_of_lt_of_le hi' hs
  have hplen : i < preds.length := lt_of_lt_of_le hi' hp
  have hs' : sents.get? i = some (sents.get ⟨i, hslen⟩) := List.get?_eq_get hslen
  have hp' : preds.get? i = some (preds.get ⟨i, hplen⟩) := List.get?_eq_get hplen
  have hl' : lens.get? i = some (lens.get ⟨i, hi'⟩) := List.get?_eq_get hi'
  obtain ⟨hpos, hle, hkeys⟩ := hcond i hi'
  rw [getD_eq_of_get? lens i 0 _ hl'] at hpos hle hkeys
  rw [getD_eq_of_get? sents i [] _ hs'] at hle
  rw [getD_eq_of_get? preds i [] _ hp'] at hkeys
  rw [postprocessOne_eq id2tag sents preds lens i _ _ _ hs' hp' hl']
  have htags : ∃ tl, decodeTags id2tag (preds.get ⟨i, hplen⟩) (lens.get ⟨i, hi'⟩) =
      .ok tl := by
    unfold decodeTags
    apply mapExcept_isOk
    intro id hid
    have hsome := hkeys id hid
    cases hl2 : lookupD id2tag (toString id) with
    | none => rw [hl2] at hsome; cases hsome
    | some t =>
      exact ⟨t, by dsimp only⟩
  obtain ⟨tl, htl⟩ := htags
  have htllen : tl.length ≤ (sents.get ⟨i, hslen⟩).length := by
    have hlen1 := mapExcept_ok_length _ _ _ htl
    have h2' : (pyTakeTo (preds.get ⟨i, hplen⟩) (lens.get ⟨i, hi'⟩)).length ≤
        (lens.get ⟨i, hi'⟩).toNat := by
      unfold pyTakeTo
      rw [if_neg (by omega)]
      rw [List.length_take]
      exact min_le_left _ _
    omega
  refine ⟨⟨sents.get ⟨i, hslen⟩, (specDecode (sents.get ⟨i, hslen⟩) tl).1,
    (specDecode (sents.get ⟨i, hslen⟩) tl).2.map pyCoarse⟩, ?_⟩
  unfold decodeOne
  rw [htl]
  dsimp only
  rw [decodeSent_eq_spec _ tl htllen]

theorem c8_safety_amended_witness :
    (([1] : List Int).length ≤ ([['a']] : List (List Char)).length) ∧
    (([1] : List Int).length ≤ ([[0]] : List (List Int)).length) ∧
    (∀ i, i < ([1] : List Int).length →
      0 ≤ ([1] : List Int).getD i 0 ∧
      ([1] : List Int).getD i 0 ≤ ((([['a']] : List (List Char)).getD i []).length : Int) ∧
      ∀ id ∈ pyTakeTo (([[0]] : List (List Int)).getD i []) (([1] : List Int).getD i 0),
        (lookupD [("0", "O")] (toString id)).isSome = true) ∧
    ∃ rs, postprocess [("0", "O")] [['a']] [[0]] [1] = .ok rs :=
  ⟨by decide, by decide, by decide,
    c8_safety_amended [("0", "O")] [['a']] [[0]] [1] (by decide) (by decide) (by decide)⟩

/-- C10 counterexample: with the two one-field lines `["a", "a"]`,
`load_vocab` succeeds and the returned dict maps `"a"` to the index `1`
of the *later* line, so the line at index `0` does not map its stripped
text to its own 0-based index as the claim states. -/
theorem c10_counterexample :
    loadVocab ["a", "a"] = .ok [("a", VocabVal.vint 1), ("a", VocabVal.vint 0)] ∧
    lookupD [("a", VocabVal.vint 1), ("a", VocabVal.vint 0)] "a" =
      some (VocabVal.vint 1) ∧
    VocabVal.vint 1 ≠ VocabVal.vint 0 := by
  refine ⟨rfl, rfl, by decide⟩

/-- C10 amended: `load_vocab` raises `ValueError` if and only if some line
splits on tab into three or more fields; otherwise, provided no two lines
insert the same key (the duplicate-key case is forced out by the
counterexample, dict insertion letting the later line win), every
single-field line maps its stripped text to that line's 0-based index,
and every two-field line is entered in `(value, key)` order when the
first field of the earliest two-field line consists only of digits and in
`(key, value)` order otherwise. -/
theorem c10_load_vocab_amended (lines : List String) :
    (exceptIsOk (loadVocab lines) = false ↔ ∃ l ∈ lines, 3 ≤ (lineTerms l).length) ∧
    ((lines.filterMap (lineKey (globalReverse lines))).Nodup →
     ∀ vocab, loadVocab lines = .ok vocab →
      ∀ (k : Nat) (hk : k < lines.length),
        ((lineTerms (lines.get ⟨k, hk⟩)).length = 1 →
          lookupD vocab (term (lines.get ⟨k, hk⟩) 0) = some (.vint k)) ∧
        ((lineTerms (lines.get ⟨k, hk⟩)).length = 2 →
          (globalReverse lines = some true →
            (term (lines.get ⟨k, hk⟩) 1, VocabVal.vstr (term (lines.get ⟨k, hk⟩) 0)) ∈
              vocab) ∧
          (globalReverse lines ≠ some true →
            (term (lines.get ⟨k, hk⟩) 0, VocabVal.vstr (term (lines.get ⟨k, hk⟩) 1)) ∈
              vocab))) := by
  constructor
  · exact loadVocabAux_isOk_iff lines 0 none []
  · intro hnd vocab h k hk
    have := loadVocabAux_spec lines 0 none [] vocab (globalReverse lines)
      (fun b hb => by cases hb) (fun _ => rfl) h hnd k hk
    simpa using this

theorem c10_load_vocab_amended_witness :
    (exceptIsOk (loadVocab ["0\tx", "b"]) = false ↔
      ∃ l ∈ ["0\tx", "b"], 3 ≤ (lineTerms l).length) ∧
    (((["0\tx", "b"] : List String).filterMap
        (lineKey (globalReverse ["0\tx", "b"]))).Nodup →
     ∀ vocab, loadVocab ["0\tx", "b"] = .ok vocab →
      ∀ (k : Nat) (hk : k < (["0\tx", "b"] : List String).length),
        ((lineTerms ((["0\tx", "b"] : List String).get ⟨k, hk⟩)).length = 1 →
          lookupD vocab (term ((["0\tx", "b"] : List String).get ⟨k, hk⟩) 0) =
            some (.vint k)) ∧
        ((lineTerms ((["0\tx", "b"] : List String).get ⟨k, hk⟩)).length = 2 →
          (globalReverse ["0\tx", "b"] = some true →
            (term ((["0\tx", "b"] : List String).get ⟨k, hk⟩) 1,
              VocabVal.vstr (term ((["0\tx", "b"] : List String).get ⟨k, hk⟩) 0)) ∈
              vocab) ∧
          (globalReverse ["0\tx", "b"] ≠ some true →
            (term ((["0\tx", "b"] : List String).get ⟨k, hk⟩) 0,
              VocabVal.vstr (term ((["0\tx", "b"] : List String).get ⟨k, hk⟩) 1)) ∈
              vocab))) :=
  c10_load_vocab_amended ["0\tx", "b"]
